import Mathlib

/-!
Verification development for the skyfield_solar repository.

The program computes, for a transmitter site and a list of receiver sites,
daily sunrise/sunset minute-of-day series over a date range and renders one
chart per receiver.  We embed the core logic of `skyfield_solar.py`:

* `convert_to_minutes` (lines 23-33): instant → fractional minute of day;
* the per-day event classification and list-repair block (lines 102-184),
  identical for the transmitter, receiver and midpoint series — we embed the
  transmitter copy once as `processDay` / `segmentDay`;
* the per-day accumulation across a date range (`buildSeries`);
* the fill-polarity branches (lines 216-226), which compare the two Python
  lists with `<=` — lexicographic float comparison, embedded as `pyListLe`;
* the chart-filename sanitisation (lines 82-86 and 245);
* the top-level receiver loop (lines 76-247), which has no exception
  handler, embedded as `runReceivers` over `Except`.

Missing sentinel values (`np.nan` appended by the code) are modelled as
`none : Option ℚ`; a present minute value `m` is `some m`.  The Python
float comparisons involving `nan` (always false, including equality) are
modelled by `pyEq` / `pyLe` on `Option ℚ`.
-/

/-- A UTC instant, reduced to the fields `convert_to_minutes` reads
(`tn.hour`, `tn.minute`, `tn.second`). Microseconds are not read. -/
structure Instant where
  hour : ℕ
  minute : ℕ
  second : ℕ
deriving DecidableEq, Repr

/-- Source lines 23-33: `tn.hour * 60 + tn.minute + tn.second / 60`,
with true (rational) division for the seconds term. -/
def convert_to_minutes (t : Instant) : ℚ :=
  t.hour * 60 + t.minute + (t.second : ℚ) / 60

/-- A sunrise/sunset crossing returned by the ephemeris adapter
(`find_discrete` with `sunrise_sunset`): an instant paired with the flag
`isRising` (`True` = sunrise, `False` = sunset). -/
structure TwilightEvent where
  time : Instant
  isRising : Bool
deriving DecidableEq, Repr

/-- A slot of a sunrise/sunset series: `none` models the `np.nan` sentinel
the code appends when no event exists; `some m` a real minute-of-day. -/
abbrev MinuteVal := Option ℚ

/-- Source lines 114-123: before the assignment loop, a day with zero
events appends `nan` to both lists, a day with exactly one event appends
`nan` to the list opposite that event's flag (`if yt:` tests the single
flag, True = rising, so the sunset list gets the `nan`). Days with two or
more events append nothing here. -/
def preAssign (sr ss : List MinuteVal) :
    List TwilightEvent → List MinuteVal × List MinuteVal
  | [] => (sr ++ [none], ss ++ [none])
  | [e] => if e.isRising then (sr, ss ++ [none]) else (sr ++ [none], ss)
  | _ => (sr, ss)

/-- Source lines 148-152: the `for time, yx in zip(tx, yt)` loop appends
each event's minute-of-day to the list selected by its flag, in event
order. -/
def appendEvents (sr ss : List MinuteVal) :
    List TwilightEvent → List MinuteVal × List MinuteVal
  | [] => (sr, ss)
  | e :: rest =>
      if e.isRising then
        appendEvents (sr ++ [some (convert_to_minutes e.time)]) ss rest
      else
        appendEvents sr (ss ++ [some (convert_to_minutes e.time)]) rest

/-- Source lines 154-160: when the day had exactly 3 events, `pop()` the
last element from the list selected by the flag `yx` left over from the
assignment loop, i.e. the last event's flag. `pop()` on a Python list
removes its final element, i.e. `List.dropLast`. For any other event
count nothing happens. -/
def repair (sr ss : List MinuteVal) (events : List TwilightEvent) :
    List MinuteVal × List MinuteVal :=
  if events.length = 3 then
    match events.getLast? with
    | some e => if e.isRising then (sr.dropLast, ss) else (sr, ss.dropLast)
    | none => (sr, ss)
  else (sr, ss)

/-- One day's effect on the running sunrise/sunset lists `(sr, ss)` of one
location: the zero/one-event sentinel branch, then the assignment loop,
then the 3-event repair — source lines 114-160 (transmitter copy; the
receiver and midpoint copies at lines 125-134/162-172 and 136-145/174-184
are identical). -/
def processDay (sr ss : List MinuteVal) (events : List TwilightEvent) :
    List MinuteVal × List MinuteVal :=
  let p := preAssign sr ss events
  let q := appendEvents p.1 p.2 events
  repair q.1 q.2 events

/-- The day-segmentation engine of the spec: one day's contribution to the
sunrise and sunset series, starting from empty lists. -/
def segmentDay (events : List TwilightEvent) :
    List MinuteVal × List MinuteVal :=
  processDay [] [] events

/-- Source lines 102-184: the per-day loop over `date_list` threads the
running lists through `processDay`, one day at a time, in date order. The
ephemeris adapter is abstracted as the list of per-day event lists. -/
def buildSeries (days : List (List TwilightEvent)) :
    List MinuteVal × List MinuteVal :=
  days.foldl (fun acc ev => processDay acc.1 acc.2 ev) ([], [])

/-- A day's event list as the ephemeris adapter delivers it: at most 3
events (the documented over-capture bound) whose rising flags alternate,
as successive crossings of the sun across the horizon do. -/
def wfDay : List TwilightEvent → Bool
  | [] => true
  | [_] => true
  | a :: b :: rest => (a.isRising != b.isRising) && wfDay (b :: rest)

def wf (events : List TwilightEvent) : Bool :=
  decide (events.length ≤ 3) && wfDay events

/-- The pre-repair state of a day: sentinel branch plus assignment loop,
before the 3-event `pop`. Used to characterise what the repair discards. -/
def segmentDayRaw (events : List TwilightEvent) :
    List MinuteVal × List MinuteVal :=
  let p := preAssign [] [] events
  appendEvents p.1 p.2 events

theorem processDay_nil (a b : List MinuteVal) :
    processDay a b [] = (a ++ [none], b ++ [none]) := by
  simp [processDay, preAssign, appendEvents, repair]

theorem processDay_single (a b : List MinuteVal) (e : TwilightEvent) :
    processDay a b [e] =
      if e.isRising then
        (a ++ [some (convert_to_minutes e.time)], b ++ [none])
      else
        (a ++ [none], b ++ [some (convert_to_minutes e.time)]) := by
  cases he : e.isRising <;>
    simp [processDay, preAssign, appendEvents, repair, he]

theorem processDay_pair (a b : List MinuteVal) (e1 e2 : TwilightEvent)
    (h : e1.isRising ≠ e2.isRising) :
    processDay a b [e1, e2] =
      if e1.isRising then
        (a ++ [some (convert_to_minutes e1.time)],
         b ++ [some (convert_to_minutes e2.time)])
      else
        (a ++ [some (convert_to_minutes e2.time)],
         b ++ [some (convert_to_minutes e1.time)]) := by
  cases he1 : e1.isRising <;> cases he2 : e2.isRising <;>
    first
      | (exfalso; rw [he1, he2] at h; exact h rfl)
      | simp [processDay, preAssign, appendEvents, repair, he1, he2]

theorem dropLast_snoc {α : Type} (l : List α) (x : α) :
    (l ++ [x]).dropLast = l := by
  simp

theorem processDay_triple (a b : List MinuteVal) (e1 e2 e3 : TwilightEvent)
    (h1 : e1.isRising ≠ e2.isRising) (h2 : e2.isRising ≠ e3.isRising) :
    processDay a b [e1, e2, e3] =
      if e1.isRising then
        (a ++ [some (convert_to_minutes e1.time)],
         b ++ [some (convert_to_minutes e2.time)])
      else
        (a ++ [some (convert_to_minutes e2.time)],
         b ++ [some (convert_to_minutes e1.time)]) := by
  cases he1 : e1.isRising <;> cases he2 : e2.isRising <;>
      cases he3 : e3.isRising <;>
    first
      | (exfalso; rw [he1, he2] at h1; exact h1 rfl)
      | (exfalso; rw [he2, he3] at h2; exact h2 rfl)
      | simp [processDay, preAssign, appendEvents, repair, he1, he2, he3,
          dropLast_snoc]

/-- The single sunrise slot a well-formed day contributes. -/
def srSlot (events : List TwilightEvent) : MinuteVal :=
  ((segmentDay events).1).headI

/-- The single sunset slot a well-formed day contributes. -/
def ssSlot (events : List TwilightEvent) : MinuteVal :=
  ((segmentDay events).2).headI

/-- On a well-formed day (at most 3 events, flags alternating) the day
block appends exactly one slot to each running list. -/
theorem processDay_wf (a b : List MinuteVal) (ev : List TwilightEvent)
    (h : wf ev = true) :
    processDay a b ev = (a ++ [srSlot ev], b ++ [ssSlot ev]) := by
  match ev with
  | [] =>
      simp [processDay_nil, srSlot, ssSlot, segmentDay]
  | [e] =>
      cases he : e.isRising <;>
        simp [processDay_single, srSlot, ssSlot, segmentDay, he]
  | [e1, e2] =>
      have hne : e1.isRising ≠ e2.isRising := by
        simp [wf, wfDay] at h
        intro hc
        rw [hc] at h
        simp at h
      cases he1 : e1.isRising <;>
        simp [processDay_pair _ _ _ _ hne, srSlot, ssSlot, segmentDay, he1]
  | [e1, e2, e3] =>
      have hne1 : e1.isRising ≠ e2.isRising := by
        simp [wf, wfDay] at h
        intro hc
        rw [hc] at h
        simp at h
      have hne2 : e2.isRising ≠ e3.isRising := by
        simp [wf, wfDay] at h
        intro hc
        rw [hc] at h
        simp at h
      cases he1 : e1.isRising <;>
        simp [processDay_triple _ _ _ _ _ hne1 hne2, srSlot, ssSlot,
          segmentDay, he1]
  | _ :: _ :: _ :: _ :: _ =>
      exfalso
      simp [wf] at h

/-- Folding the per-day block over a run of well-formed days, starting from
any accumulator, appends one slot per day to each list, in day order. -/
theorem foldl_processDay_wf (days : List (List TwilightEvent))
    (h : ∀ ev ∈ days, wf ev = true) (a b : List MinuteVal) :
    days.foldl (fun acc ev => processDay acc.1 acc.2 ev) (a, b)
      = (a ++ days.map srSlot, b ++ days.map ssSlot) := by
  induction days generalizing a b with
  | nil => simp
  | cons d ds ih =>
      have hd : wf d = true := h d (List.mem_cons_self d ds)
      have hds : ∀ ev ∈ ds, wf ev = true := fun ev hev =>
        h ev (List.mem_cons_of_mem d hev)
      simp only [List.foldl_cons, processDay_wf a b d hd]
      rw [ih hds]
      simp [List.append_assoc]

/-- C7: for every day whose ephemeris query returns 0 events, both the
sunrise output and the sunset output for that day are the missing
sentinel. -/
theorem zero_event_day_both_missing :
    segmentDay [] = ([none], [none]) := by
  simp [segmentDay, processDay_nil]

/-- C6: for every day whose ephemeris query returns exactly 1 event, the
side matching the event's isRising flag holds that event's minute-of-day
and the other side is the missing sentinel. -/
theorem one_event_day_assignment (e : TwilightEvent) :
    segmentDay [e] =
      if e.isRising then
        ([some (convert_to_minutes e.time)], [none])
      else
        ([none], [some (convert_to_minutes e.time)]) := by
  simp [segmentDay, processDay_single]

/-- C5: for every day whose ephemeris query returns exactly 2 events with
opposite isRising flags, segmentDay produces exactly one non-missing
sunrise and one non-missing sunset, each equal to the corresponding
event's minute-of-day. -/
theorem two_event_day_assignment (e1 e2 : TwilightEvent)
    (h : e1.isRising ≠ e2.isRising) :
    ((segmentDay [e1, e2]).1.length = 1 ∧
     (segmentDay [e1, e2]).2.length = 1) ∧
    segmentDay [e1, e2] =
      (if e1.isRising then
        ([some (convert_to_minutes e1.time)],
         [some (convert_to_minutes e2.time)])
      else
        ([some (convert_to_minutes e2.time)],
         [some (convert_to_minutes e1.time)])) := by
  cases he1 : e1.isRising <;>
    simp [segmentDay, processDay_pair _ _ _ _ h, he1]

/-- Witness for C5 at a concrete sunrise-6:00 / sunset-18:00 day. -/
theorem two_event_day_assignment_witness :
    segmentDay [⟨⟨6, 0, 0⟩, true⟩, ⟨⟨18, 0, 0⟩, false⟩]
      = ([some 360], [some 1080]) := by
  have h := two_event_day_assignment ⟨⟨6, 0, 0⟩, true⟩ ⟨⟨18, 0, 0⟩, false⟩
    (by decide)
  rw [h.2]
  norm_num [convert_to_minutes]

/-- C1: for every day whose ephemeris query returns exactly 3 events (with
alternating flags, as successive horizon crossings have), after the repair
step each side retains exactly one value for the day, and the value
discarded relative to the pre-repair state is the last event's
minute-of-day, removed from the list selected by the last event's
isRising flag. -/
theorem three_event_repair (e1 e2 e3 : TwilightEvent)
    (h1 : e1.isRising ≠ e2.isRising) (h2 : e2.isRising ≠ e3.isRising) :
    ((segmentDay [e1, e2, e3]).1.length = 1 ∧
     (segmentDay [e1, e2, e3]).2.length = 1) ∧
    (if e3.isRising then
        (segmentDayRaw [e1, e2, e3]).1
          = (segmentDay [e1, e2, e3]).1
              ++ [some (convert_to_minutes e3.time)] ∧
        (segmentDayRaw [e1, e2, e3]).2 = (segmentDay [e1, e2, e3]).2
      else
        (segmentDayRaw [e1, e2, e3]).1 = (segmentDay [e1, e2, e3]).1 ∧
        (segmentDayRaw [e1, e2, e3]).2
          = (segmentDay [e1, e2, e3]).2
              ++ [some (convert_to_minutes e3.time)]) := by
  cases he1 : e1.isRising <;> cases he2 : e2.isRising <;>
      cases he3 : e3.isRising <;>
    first
      | (exfalso; rw [he1, he2] at h1; exact h1 rfl)
      | (exfalso; rw [he2, he3] at h2; exact h2 rfl)
      | simp [segmentDay, segmentDayRaw, processDay_triple _ _ _ _ _ h1 h2,
          preAssign, appendEvents, he1, he2, he3]

/-- Witness for C1 at the synthetic (rise, fall, rise) day of the spec:
each side retains one value, and the pre-repair state held one extra
value, the third event's 1430 minutes, on the sunrise side (the third
event's flag). -/
theorem three_event_repair_witness :
    (segmentDay [⟨⟨0, 10, 0⟩, true⟩, ⟨⟨12, 0, 0⟩, false⟩,
        ⟨⟨23, 50, 0⟩, true⟩]).1.length = 1 ∧
    (segmentDay [⟨⟨0, 10, 0⟩, true⟩, ⟨⟨12, 0, 0⟩, false⟩,
        ⟨⟨23, 50, 0⟩, true⟩]).2.length = 1 ∧
    (segmentDayRaw [⟨⟨0, 10, 0⟩, true⟩, ⟨⟨12, 0, 0⟩, false⟩,
        ⟨⟨23, 50, 0⟩, true⟩]).1
      = (segmentDay [⟨⟨0, 10, 0⟩, true⟩, ⟨⟨12, 0, 0⟩, false⟩,
          ⟨⟨23, 50, 0⟩, true⟩]).1
          ++ [some (convert_to_minutes ⟨23, 50, 0⟩)] ∧
    convert_to_minutes ⟨23, 50, 0⟩ = 1430 := by
  have h := three_event_repair ⟨⟨0, 10, 0⟩, true⟩ ⟨⟨12, 0, 0⟩, false⟩
    ⟨⟨23, 50, 0⟩, true⟩ (by decide) (by decide)
  simp only [if_true] at h
  exact ⟨h.1.1, h.1.2, h.2.1, by norm_num [convert_to_minutes]⟩

/-- C2: over any run of well-formed days (at most 3 alternating events
each, as the ephemeris adapter delivers), the sunrise and sunset sequences
have equal length, equal to the number of days, and slot i of each
sequence is day i's slot, appended in date order. -/
theorem series_alignment (days : List (List TwilightEvent))
    (h : ∀ ev ∈ days, wf ev = true) :
    (buildSeries days).1.length = days.length ∧
    (buildSeries days).2.length = days.length ∧
    (buildSeries days).1 = days.map srSlot ∧
    (buildSeries days).2 = days.map ssSlot := by
  have hb : buildSeries days = (days.map srSlot, days.map ssSlot) := by
    rw [buildSeries, foldl_processDay_wf days h [] []]
    simp
  refine ⟨?_, ?_, ?_, ?_⟩ <;> rw [hb] <;> simp

/-- Witness for C2 on a concrete two-day run: a normal day then a polar
day. -/
theorem series_alignment_witness :
    (buildSeries [[⟨⟨6, 0, 0⟩, true⟩, ⟨⟨18, 0, 0⟩, false⟩], []]).1.length
        = 2 ∧
    (buildSeries [[⟨⟨6, 0, 0⟩, true⟩, ⟨⟨18, 0, 0⟩, false⟩], []]).2.length
        = 2 := by
  have h := series_alignment
    [[⟨⟨6, 0, 0⟩, true⟩, ⟨⟨18, 0, 0⟩, false⟩], []] (by decide)
  exact ⟨h.1, h.2.1⟩

/-- Equality as Python list comparison applies it to the slots of these
series. Every missing slot the program appends is the one `np.nan`
object, and CPython's list comparison checks object identity before `==`,
so two missing slots compare equal here even though scalar `nan == nan`
is false; a missing slot against a number compares unequal. -/
def pyEq : MinuteVal → MinuteVal → Bool
  | some a, some b => decide (a = b)
  | none, none => true
  | _, _ => false

/-- Python float `<=` on series values: any comparison with `nan` is
false. -/
def pyLe : MinuteVal → MinuteVal → Bool
  | some a, some b => decide (a ≤ b)
  | _, _ => false

/-- Python list `<=`: lexicographic — skip equal heads, decide at the
first unequal pair, and a list is `<=` any extension of itself. This is
what `t_sr <= t_ss` at source line 216 computes on the two series. -/
def pyListLe : List MinuteVal → List MinuteVal → Bool
  | [], _ => true
  | _ :: _, [] => false
  | a :: as, b :: bs => if pyEq a b then pyListLe as bs else pyLe a b

inductive Polarity where
  | normal
  | inverted
deriving DecidableEq, Repr

/-- One `fill_between` call: shade between boundary `y1` and boundary
`y2`, each either a whole series or a constant. -/
inductive Boundary where
  | const (v : ℚ)
  | series (s : List MinuteVal)
deriving DecidableEq, Repr

structure Region where
  y1 : Boundary
  y2 : Boundary
deriving DecidableEq, Repr

/-- Source lines 216-226: if the sunrise list compares `<=` to the sunset
list (Python lexicographic list comparison), shade sunset→1440 and
sunrise→0 (two night regions); otherwise shade sunset→sunrise (one
region). Identical logic is applied to the transmitter lists (216-220)
and the receiver lists (222-226). -/
def resolveFill (sr ss : List MinuteVal) : Polarity × List Region :=
  if pyListLe sr ss then
    (Polarity.normal,
      [⟨Boundary.series ss, Boundary.const 1440⟩,
       ⟨Boundary.series sr, Boundary.const 0⟩])
  else
    (Polarity.inverted, [⟨Boundary.series ss, Boundary.series sr⟩])

/-- Counterexample to C3: series whose first sunrise equals the first
sunset, with a larger second sunrise. The claim requires "normal" (first
sunrise ≤ first sunset holds), but the code's list comparison falls
through to the second element and classifies "inverted" with one
region. -/
theorem fill_first_value_cex :
    pyLe (List.headI [some (5 : ℚ), some 10])
        (List.headI [some (5 : ℚ), some 3]) = true ∧
    (resolveFill [some (5 : ℚ), some 10] [some (5 : ℚ), some 3]).1
        = Polarity.inverted ∧
    (resolveFill [some (5 : ℚ), some 10] [some (5 : ℚ), some 3]).2.length
        = 1 := by
  norm_num [pyLe, pyEq, pyListLe, resolveFill, List.headI]

/-- C3 amended: the polarity decision is made once for the whole series by
Python lexicographic list comparison of the sunrise series against the
sunset series (nan comparing false to everything); "normal" emits the two
night regions sunset→1440 and sunrise→0, "inverted" the single region
sunset→sunrise. When the two first values are unequal (and not nan) the
lexicographic comparison agrees with the claim's first-value rule. -/
theorem fill_polarity_lex (sr ss : List MinuteVal) :
    ((resolveFill sr ss).1 = Polarity.normal ↔ pyListLe sr ss = true) ∧
    ((resolveFill sr ss).1 = Polarity.normal →
      (resolveFill sr ss).2
        = [⟨Boundary.series ss, Boundary.const 1440⟩,
           ⟨Boundary.series sr, Boundary.const 0⟩]) ∧
    ((resolveFill sr ss).1 = Polarity.inverted →
      (resolveFill sr ss).2 = [⟨Boundary.series ss, Boundary.series sr⟩]) ∧
    (∀ (a b : MinuteVal) (as bs : List MinuteVal), pyEq a b = false →
      pyListLe (a :: as) (b :: bs) = pyLe a b) := by
  refine ⟨?_, ?_, ?_, ?_⟩
  · by_cases hle : pyListLe sr ss = true <;> simp [resolveFill, hle]
  · by_cases hle : pyListLe sr ss = true <;> simp [resolveFill, hle]
  · by_cases hle : pyListLe sr ss = true <;> simp [resolveFill, hle]
  · intro a b as bs hne
    simp [pyListLe, hne]

/-- Witness for C3 amended on concrete series: a normal pair, an inverted
pair, and a first-value-decided comparison. -/
theorem fill_polarity_lex_witness :
    (resolveFill [some 360] [some 1080]).1 = Polarity.normal ∧
    (resolveFill [some 360] [some 1080]).2
      = [⟨Boundary.series [some 1080], Boundary.const 1440⟩,
         ⟨Boundary.series [some 360], Boundary.const 0⟩] ∧
    (resolveFill [some 1080] [some 360]).1 = Polarity.inverted ∧
    pyListLe [some (9 : ℚ), some 1] [some 3, some 100]
      = pyLe (some 9) (some 3) := by
  have h1 := fill_polarity_lex [some 360] [some 1080]
  have h2 := fill_polarity_lex [some 1080] [some 360]
  have hn : (resolveFill [some 360] [some 1080]).1 = Polarity.normal := by
    refine h1.1.mpr ?_
    norm_num [pyListLe, pyEq, pyLe]
  refine ⟨hn, h1.2.1 hn, ?_, ?_⟩
  · have : ¬ pyListLe [some 1080] [some 360] = true := by
      norm_num [pyListLe, pyEq, pyLe]
    cases hc : (resolveFill [some 1080] [some 360]).1
    · exact absurd (h2.1.mp hc) this
    · rfl
  · exact h2.2.2.2 (some 9) (some 3) [some 1] [some 100]
      (by norm_num [pyEq])

/-- Source lines 76-247: the top-level `for country in dxcc` loop. The
body (ephemeris queries, geodesy midpoint, accumulation, rendering,
saving) contains no exception handler anywhere in the program, so an
exception raised while processing one receiver propagates out of the loop;
we embed one receiver's fallible unit of work as `f : α → Except ε χ` and
the loop as the sequential run below. -/
def runReceivers {α ε χ : Type} (f : α → Except ε χ) :
    List α → Except ε (List χ)
  | [] => Except.ok []
  | r :: rs =>
      match f r with
      | Except.error e => Except.error e
      | Except.ok c =>
          match runReceivers f rs with
          | Except.error e => Except.error e
          | Except.ok cs => Except.ok (c :: cs)

/-- Counterexample to C4: with two receivers where only the first fails,
the run produces an error and no chart list at all — the second receiver,
which on its own would succeed, is never processed. -/
theorem receiver_isolation_cex :
    runReceivers
        (fun n : ℕ => if n = 0 then Except.error 0 else Except.ok n)
        [0, 1]
      = Except.error 0 ∧
    (fun n : ℕ => if n = 0 then Except.error 0 else Except.ok n) 1
      = Except.ok 1 := by
  constructor <;> rfl

/-- C4 amended: an error while processing one receiver aborts the entire
remaining run — the failing receiver's error is the result and no later
receiver in the list is processed. -/
theorem receiver_error_aborts_run {α ε χ : Type} (f : α → Except ε χ)
    (r : α) (rs : List α) (e : ε) (h : f r = Except.error e) :
    runReceivers f (r :: rs) = Except.error e := by
  simp [runReceivers, h]

/-- Witness for C4 amended: a three-receiver list whose first receiver
fails. -/
theorem receiver_error_aborts_run_witness :
    runReceivers
        (fun n : ℕ => if n = 0 then Except.error 7 else Except.ok n)
        [0, 1, 2]
      = Except.error 7 :=
  receiver_error_aborts_run
    (fun n : ℕ => if n = 0 then Except.error 7 else Except.ok n)
    0 [1, 2] 7 rfl

/-- C8: for every instant with in-range fields, convert_to_minutes equals
hour*60 + minute + second/60, lies in [0, 1440), and 13:30:45 converts to
810.75. -/
theorem convert_to_minutes_range (t : Instant)
    (hh : t.hour < 24) (hm : t.minute < 60) (hs : t.second < 60) :
    (convert_to_minutes t
        = (t.hour : ℚ) * 60 + (t.minute : ℚ) + (t.second : ℚ) / 60) ∧
    (0 ≤ convert_to_minutes t ∧ convert_to_minutes t < 1440) ∧
    convert_to_minutes ⟨13, 30, 45⟩ = 810.75 := by
  refine ⟨rfl, ⟨?_, ?_⟩, by norm_num [convert_to_minutes]⟩
  · unfold convert_to_minutes
    positivity
  · unfold convert_to_minutes
    have h1 : (t.hour : ℚ) ≤ 23 := by
      exact_mod_cast Nat.le_of_lt_succ hh
    have h2 : (t.minute : ℚ) ≤ 59 := by
      exact_mod_cast Nat.le_of_lt_succ hm
    have h3 : (t.second : ℚ) ≤ 59 := by
      exact_mod_cast Nat.le_of_lt_succ hs
    have h4 : (t.second : ℚ) / 60 ≤ 59 / 60 := by linarith
    linarith

/-- Witness for C8 at 13:30:45 UTC. -/
theorem convert_to_minutes_range_witness :
    0 ≤ convert_to_minutes ⟨13, 30, 45⟩ ∧
    convert_to_minutes ⟨13, 30, 45⟩ < 1440 ∧
    convert_to_minutes ⟨13, 30, 45⟩ = 810.75 := by
  have h := convert_to_minutes_range ⟨13, 30, 45⟩ (by norm_num)
    (by norm_num) (by norm_num)
  exact ⟨h.2.1.1, h.2.1.2, h.2.2⟩

/-- Source lines 82-86, first step: `cty.replace(' ', '_')` replaces every
space character. -/
def replaceChar (a b : Char) (s : List Char) : List Char :=
  s.map fun c => if c = a then b else c

/-- Source lines 82-86, later steps: `.replace(x, '')` deletes every
occurrence of the character. -/
def removeChar (a : Char) (s : List Char) : List Char :=
  s.filter fun c => c ≠ a

/-- Source lines 82-86: the chained replaces building the sanitised
receiver name — spaces become underscores, then periods, commas and
slashes are stripped. -/
def sanitizeName (s : List Char) : List Char :=
  removeChar '/' (removeChar ',' (removeChar '.' (replaceChar ' ' '_' s)))

/-- Source line 245: the persisted chart name
`'%s_%s_%s' % (start_date.year, txname, ...)` — year rendering, then an
underscore, the transmitter name, an underscore and the sanitised
receiver name. -/
def chartFileName (year txname cty : List Char) : List Char :=
  year ++ '_' :: (txname ++ '_' :: sanitizeName cty)

/-- Sanitisation as the spec words it, in one pass: replace each space,
strip each period, comma and slash, keep everything else. Used to compare
the code's chained replaces against the spec's description. -/
def sanitizeSpec (s : List Char) : List Char :=
  s.filterMap fun c =>
    if c = ' ' then some '_'
    else if c = '.' ∨ c = ',' ∨ c = '/' then none
    else some c

theorem sanitizeName_eq_spec (s : List Char) :
    sanitizeName s = sanitizeSpec s := by
  induction s with
  | nil => rfl
  | cons c cs ih =>
      simp only [sanitizeName, sanitizeSpec, replaceChar, removeChar,
        List.map_cons, List.filter_cons, List.filterMap_cons] at ih ⊢
      by_cases h1 : c = ' '
      · subst h1
        simpa using ih
      · by_cases h2 : c = '.'
        · subst h2
          simpa using ih
        · by_cases h3 : c = ','
          · subst h3
            simpa using ih
          · by_cases h4 : c = '/'
            · subst h4
              simpa using ih
            · simp only [h1, h2, h3, h4, if_false, ite_false, if_neg,
                decide_not]
              simpa [h1, h2, h3, h4] using ih

theorem mem_sanitizeSpec {x : Char} {s : List Char}
    (hx : x ∈ sanitizeSpec s) :
    x ≠ ' ' ∧ x ≠ '.' ∧ x ≠ ',' ∧ x ≠ '/' := by
  rcases List.mem_filterMap.mp hx with ⟨a, _, hfa⟩
  by_cases h1 : a = ' '
  · rw [if_pos h1] at hfa
    cases hfa
    refine ⟨by decide, by decide, by decide, by decide⟩
  · rw [if_neg h1] at hfa
    by_cases h2 : a = '.' ∨ a = ',' ∨ a = '/'
    · rw [if_pos h2] at hfa
      cases hfa
    · rw [if_neg h2] at hfa
      cases hfa
      push_neg at h2
      exact ⟨h1, h2.1, h2.2.1, h2.2.2⟩

/-- C9: for every receiver, the persisted chart filename is the start
year, the transmitter name and the sanitised receiver name joined by
underscores, where sanitisation replaces each space with an underscore
and strips every period, comma and slash, keeping all other characters
in order; no space, period, comma or slash survives. -/
theorem chart_filename_sanitization (year txname cty : List Char) :
    chartFileName year txname cty
        = year ++ '_' :: (txname ++ '_' :: sanitizeName cty) ∧
    sanitizeName cty = sanitizeSpec cty ∧
    ∀ x ∈ sanitizeName cty, x ≠ ' ' ∧ x ≠ '.' ∧ x ≠ ',' ∧ x ≠ '/' := by
  refine ⟨rfl, sanitizeName_eq_spec cty, ?_⟩
  intro x hx
  rw [sanitizeName_eq_spec cty] at hx
  exact mem_sanitizeSpec hx

theorem appendEvents_lengths (sr ss : List MinuteVal)
    (events : List TwilightEvent) :
    (appendEvents sr ss events).1.length
        = sr.length + (events.filter fun e => e.isRising).length ∧
    (appendEvents sr ss events).2.length
        = ss.length + (events.filter fun e => !e.isRising).length := by
  induction events generalizing sr ss with
  | nil => simp [appendEvents]
  | cons e rest ih =>
      cases he : e.isRising <;>
        simp [appendEvents, he, List.filter_cons, ih] <;>
        omega

theorem preAssign_big (sr ss : List MinuteVal) (e1 e2 : TwilightEvent)
    (rest : List TwilightEvent) :
    preAssign sr ss (e1 :: e2 :: rest) = (sr, ss) := rfl

/-- C10 amended: a day whose event count is 2 or more but not 3 raises no
error and performs no repair — each side's contribution is exactly the
events of its flag, so two same-flag events put two values on one side
and none on the other (lengths diverge), while four or more events
overfill the day (shifting later days relative to the date index) yet
leave the two lengths equal whenever the flag counts are equal, e.g. for
four alternating events. -/
theorem malformed_day_counts (events : List TwilightEvent)
    (h2 : 2 ≤ events.length) (h3 : events.length ≠ 3) :
    (segmentDay events).1.length
        = (events.filter fun e => e.isRising).length ∧
    (segmentDay events).2.length
        = (events.filter fun e => !e.isRising).length := by
  match events, h2 with
  | e1 :: e2 :: rest, _ =>
      have hpre : preAssign [] [] (e1 :: e2 :: rest) = ([], []) :=
        preAssign_big [] [] e1 e2 rest
      have hrep : ∀ q1 q2 : List MinuteVal,
          repair q1 q2 (e1 :: e2 :: rest) = (q1, q2) := by
        intro q1 q2
        simp only [repair]
        rw [if_neg h3]
      have hseg : segmentDay (e1 :: e2 :: rest)
          = appendEvents [] [] (e1 :: e2 :: rest) := by
        simp [segmentDay, processDay, hpre, hrep]
      rw [hseg]
      have h := appendEvents_lengths [] [] (e1 :: e2 :: rest)
      simpa using h

/-- Witness for C10 amended: a day with two rising events puts both on
the sunrise side and nothing on the sunset side. -/
theorem malformed_day_counts_witness :
    (segmentDay [⟨⟨1, 0, 0⟩, true⟩, ⟨⟨2, 0, 0⟩, true⟩]).1.length = 2 ∧
    (segmentDay [⟨⟨1, 0, 0⟩, true⟩, ⟨⟨2, 0, 0⟩, true⟩]).2.length = 0 := by
  have h := malformed_day_counts
    [⟨⟨1, 0, 0⟩, true⟩, ⟨⟨2, 0, 0⟩, true⟩] (by decide) (by decide)
  exact ⟨by rw [h.1]; rfl, by rw [h.2]; rfl⟩

/-- Counterexample to C10 as stated: a day of four alternating events
appends exactly two values to each side, so the other side does not
receive fewer than one value and the two sequences' lengths do not
diverge from each other (both are equally overfilled). -/
theorem malformed_day_cex :
    (segmentDay [⟨⟨1, 0, 0⟩, true⟩, ⟨⟨2, 0, 0⟩, false⟩,
        ⟨⟨3, 0, 0⟩, true⟩, ⟨⟨4, 0, 0⟩, false⟩]).1.length = 2 ∧
    (segmentDay [⟨⟨1, 0, 0⟩, true⟩, ⟨⟨2, 0, 0⟩, false⟩,
        ⟨⟨3, 0, 0⟩, true⟩, ⟨⟨4, 0, 0⟩, false⟩]).2.length = 2 := by
  constructor <;> rfl
